import Mathlib

/-!
Verification of the Title Recognition & Matching Pipeline of the PLAY-ON
repository (src-tauri/src/{media_player,title_parser,anilist,lib}.rs).

Rust strings are embedded as `List Char` (the list of Unicode scalar values).
Byte-indexed operations (`rfind`, slicing `s[..pos]`, `s.len()`) are modelled
explicitly through UTF-8 byte sizes (`Char.utf8Size`); a slice whose index does
not fall on a character boundary (which panics in Rust) is modelled as `none`.
Throughout, `Option` on the result of a function that in Rust returns a plain
value models panic-freedom: `none` means the Rust code panics on that input.
-/

/-- Rust strings modelled as lists of Unicode scalar values. -/
abbrev Str := List Char

/-- Unicode `White_Space` characters: the set recognised by Rust's
`char::is_whitespace`, `str::trim`, `str::split_whitespace` and the regex
crate's `\s` class. -/
def isWS (c : Char) : Bool :=
  c = ' ' || c = '\t' || c = '\n' || c = '\x0b' || c = '\x0c' || c = '\r' ||
  c = '\u0085' || c = '\u00A0' || c = '\u1680' ||
  ('\u2000' ≤ c && c ≤ '\u200A') ||
  c = '\u2028' || c = '\u2029' || c = '\u202F' || c = '\u205F' || c = '\u3000'

/-- Rust `char::to_lowercase` (as used by `str::to_lowercase`), restricted to
the characters exercised in this development: ASCII letters, U+1E9E LATIN
CAPITAL LETTER SHARP S (whose Unicode lowercase mapping is U+00DF and whose
UTF-8 encoding shrinks from 3 to 2 bytes), and U+0130 LATIN CAPITAL LETTER I
WITH DOT ABOVE (whose lowercase mapping per SpecialCasing.txt is the two
characters "i" U+0307). All other characters are mapped to themselves. -/
def toLowerChar (c : Char) : List Char :=
  if 65 ≤ c.toNat ∧ c.toNat ≤ 90 then [Char.ofNat (c.toNat + 32)]
  else if c = '\u1E9E' then ['\u00DF']
  else if c = '\u0130' then ['i', '\u0307']
  else [c]

/-- Rust `str::to_lowercase`, character by character. -/
def toLowerStr (s : Str) : Str := s.flatMap toLowerChar

/-- The UTF-8 byte length of a string, Rust's `str::len`. -/
def utf8Len (s : Str) : Nat := (s.map Char.utf8Size).sum

/-- Rust byte slicing `s[..n]`: take the characters occupying the first `n`
bytes. `none` models the panic raised when `n` is out of bounds or does not
fall on a character boundary. -/
def takeBytes : Str → Nat → Option Str
  | _, 0 => some []
  | [], _ + 1 => none
  | c :: cs, n + 1 =>
    if c.utf8Size ≤ n + 1 then (takeBytes cs (n + 1 - c.utf8Size)).map (fun r => c :: r)
    else none

/-- Rust `str::contains`: substring containment. A byte-level occurrence of
one valid UTF-8 string inside another always starts on a character boundary
(a lead byte never equals a continuation byte), so character-level search is a
faithful model. -/
def containsSub (hay pat : Str) : Bool :=
  (List.range (hay.length + 1)).any (fun k => pat.isPrefixOf (hay.drop k))

/-- Rust `str::rfind` for a string pattern: the byte offset of the rightmost
occurrence (`none` when the pattern does not occur). -/
def rfindPos (hay pat : Str) : Option Nat :=
  (((List.range (hay.length + 1)).filter
      (fun k => pat.isPrefixOf (hay.drop k))).getLast?).map
    (fun k => utf8Len (hay.take k))

/-- Remove trailing whitespace. -/
def dropTrailWS (s : Str) : Str := (s.reverse.dropWhile isWS).reverse

/-- Rust `str::trim`. -/
def trimStr (s : Str) : Str := dropTrailWS (s.dropWhile isWS)

/-- The effect of `Regex::new(r"\s+").replace_all(s, " ")`: every maximal run
of whitespace characters (the non-overlapping leftmost-first matches of `\s+`)
is replaced by a single space. -/
def collapseWS : Str → Str
  | [] => []
  | [c] => if isWS c then [' '] else [c]
  | c :: d :: cs =>
    if isWS c then
      if isWS d then collapseWS (d :: cs)
      else ' ' :: collapseWS (d :: cs)
    else c :: collapseWS (d :: cs)

/-- The accumulating scan behind `splitWS`; `acc` holds the current word,
reversed. -/
def splitWSAux : Str → Str → List Str
  | [], acc => if acc.isEmpty then [] else [acc.reverse]
  | c :: cs, acc =>
    if isWS c then
      if acc.isEmpty then splitWSAux cs []
      else acc.reverse :: splitWSAux cs []
    else splitWSAux cs (c :: acc)

/-- Rust `str::split_whitespace`: the maximal runs of non-whitespace
characters, in order. -/
def splitWS (s : Str) : List Str := splitWSAux s []

/-- `Vec::join(" ")` on a list of words. -/
def joinWords (ws : List Str) : Str := List.intercalate [' '] ws

/-! ## media_player.rs -/

/-- The `MediaPlayer` enum of `media_player.rs`. -/
inductive MediaPlayer where
  | VLC | MPV | MPC | PotPlayer | KMPlayer | GOM | WMP | Browser | Generic
deriving DecidableEq

/-- The streaming-site brand names tested for the `Browser` arm of
`detect_media_player`. -/
def browserBrands : List Str :=
  ["youtube", "netflix", "prime video", "crunchyroll", "funimation",
   "hidive", "hianime", "9anime"].map String.toList

/-- The video file extensions tested for the `Generic` arm of
`detect_media_player` (also the extension list of `normalize_separators`). -/
def videoExtensions : List Str :=
  [".mkv", ".mp4", ".avi", ".webm", ".m4v", ".mov", ".wmv", ".flv"].map String.toList

/-- `media_player::detect_media_player`: case-insensitive substring tests in
the fixed order of the source. -/
def detect_media_player (title : Str) : Option MediaPlayer :=
  let tl := toLowerStr title
  if containsSub tl "vlc media player".toList || containsSub tl "vlc".toList then
    some .VLC
  else if containsSub tl "mpv".toList then some .MPV
  else if containsSub tl "mpc".toList || containsSub tl "media player classic".toList then
    some .MPC
  else if containsSub tl "potplayer".toList || containsSub tl "pot player".toList then
    some .PotPlayer
  else if containsSub tl "kmplayer".toList || containsSub tl "km player".toList then
    some .KMPlayer
  else if containsSub tl "gom player".toList || containsSub tl "gomplayer".toList then
    some .GOM
  else if containsSub tl "windows media player".toList || containsSub tl "wmp".toList then
    some .WMP
  else if browserBrands.any (fun b => containsSub tl b) then some .Browser
  else if videoExtensions.any (fun e => containsSub tl e) then some .Generic
  else none


/-! ## A small regex engine

`title_parser.rs` builds its strategies from `regex::Regex` patterns. The
engine below implements exactly the constructs those patterns use, with the
leftmost-first (Perl-style) match preference of the Rust regex crate: the
match starting at the earliest position wins, and within one position the
alternatives are explored in preference order (greedy operators prefer longer,
lazy operators prefer shorter, `|` prefers its left branch). -/

/-- Regular-expression syntax used by the patterns of `title_parser.rs`. -/
inductive RE where
  | eps
  | lit (c : Char)
  | litCI (c : Char)
  | anyNoNL
  | digit
  | wsCls
  | inSet (cs : List Char)
  | notInSet (cs : List Char)
  | hexDigit
  | seq (a b : RE)
  | alt (a b : RE)
  | star (r : RE)
  | starL (r : RE)
  | opt (r : RE)
  | group (i : Nat) (r : RE)
  | eos

/-- ASCII case folding, for literals under the `(?i)` flag (the case-insensitive
patterns of `title_parser.rs` only rely on ASCII letters). -/
def asciiFold (c : Char) : Char :=
  if 'A' ≤ c && c ≤ 'Z' then Char.ofNat (c.toNat + 32) else c

/-- Capture groups recorded during a match: group index paired with the
captured substring. -/
abbrev Caps := List (Nat × Str)

/-- Backtracking matcher in continuation-passing style. `mtch fuel re s caps k`
tries to match `re` against a prefix of `s`, invoking the continuation `k` with
the remaining input and updated captures for every candidate split, in the
preference order of the Rust regex crate; the first candidate accepted by `k`
wins. The fuel only bounds the recursion depth (each starred subpattern of the
embedded regexes consumes at least one character per iteration, so a fuel
linear in the input length suffices and is never exhausted by the callers
below). -/
def mtch : Nat → RE → Str → Caps → (Str → Caps → Option (Str × Caps)) →
    Option (Str × Caps)
  | 0, _, _, _, _ => none
  | fuel + 1, re, s, caps, k =>
    match re with
    | .eps => k s caps
    | .lit c =>
      match s with
      | [] => none
      | x :: rest => if x = c then k rest caps else none
    | .litCI c =>
      match s with
      | [] => none
      | x :: rest => if asciiFold x = asciiFold c then k rest caps else none
    | .anyNoNL =>
      match s with
      | [] => none
      | x :: rest => if x = '\n' then none else k rest caps
    | .digit =>
      match s with
      | [] => none
      | x :: rest => if '0' ≤ x && x ≤ '9' then k rest caps else none
    | .wsCls =>
      match s with
      | [] => none
      | x :: rest => if isWS x then k rest caps else none
    | .inSet cs =>
      match s with
      | [] => none
      | x :: rest => if cs.contains x then k rest caps else none
    | .notInSet cs =>
      match s with
      | [] => none
      | x :: rest => if cs.contains x then none else k rest caps
    | .hexDigit =>
      match s with
      | [] => none
      | x :: rest =>
        if ('0' ≤ x && x ≤ '9') || ('a' ≤ x && x ≤ 'f') || ('A' ≤ x && x ≤ 'F') then
          k rest caps
        else none
    | .seq a b => mtch fuel a s caps (fun s2 caps2 => mtch fuel b s2 caps2 k)
    | .alt a b =>
      match mtch fuel a s caps k with
      | some res => some res
      | none => mtch fuel b s caps k
    | .star r =>
      match mtch fuel r s caps (fun s2 caps2 =>
          if s2.length < s.length then mtch fuel (.star r) s2 caps2 k else none) with
      | some res => some res
      | none => k s caps
    | .starL r =>
      match k s caps with
      | some res => some res
      | none =>
        mtch fuel r s caps (fun s2 caps2 =>
          if s2.length < s.length then mtch fuel (.starL r) s2 caps2 k else none)
    | .opt r =>
      match mtch fuel r s caps k with
      | some res => some res
      | none => k s caps
    | .group i r =>
      mtch fuel r s caps (fun s2 caps2 =>
        k s2 ((i, s.take (s.length - s2.length)) :: caps2))
    | .eos =>
      match s with
      | [] => k s caps
      | _ :: _ => none

/-- Fuel that is more than sufficient for the embedded patterns (see `mtch`). -/
def mtchFuel (s : Str) : Nat := (s.length + 2) * 20

/-- Run a regex anchored at the start of `s`; on success return the remaining
input and captures of the preferred match. -/
def runRE (r : RE) (s : Str) : Option (Str × Caps) :=
  mtch (mtchFuel s) r s [] (fun rest caps => some (rest, caps))

/-- Unanchored leftmost-first search (`Regex::captures` / `Regex::find`):
returns start position, match length (in characters) and captures. -/
def reFindAux (r : RE) : Nat → Str → Nat → Option (Nat × Nat × Caps)
  | 0, _, _ => none
  | n + 1, s, pos =>
    match runRE r s with
    | some (rest, caps) => some (pos, s.length - rest.length, caps)
    | none =>
      match s with
      | [] => none
      | _ :: t => reFindAux r n t (pos + 1)

/-- `Regex::captures`: leftmost-first match anywhere in `s`. -/
def reFind (r : RE) (s : Str) : Option (Nat × Nat × Caps) :=
  reFindAux r (s.length + 1) s 0

/-- Look up a capture group in the captures of a successful match. -/
def capGet (caps : Caps) (i : Nat) : Option Str :=
  (caps.find? (fun p => p.1 == i)).map (fun p => p.2)

/-- `Regex::replace(s, "")`: delete the leftmost-first match, if any. -/
def replaceFirstRE (r : RE) (s : Str) : Str :=
  match reFind r s with
  | some (pos, len, _) => s.take pos ++ s.drop (pos + len)
  | none => s

/-- `Regex::replace(s, "")` for a pattern anchored with `^`: such a pattern can
only match at position 0, so only a start-anchored attempt is made. -/
def replaceAtStart (r : RE) (s : Str) : Str :=
  match runRE r s with
  | some (rest, _) => rest
  | none => s

/-- `Regex::replace_all(s, "")`: delete every non-overlapping leftmost match,
resuming the scan after each match. None of the embedded patterns can match
the empty string, so each step consumes at least one character. -/
def replaceAllAux (r : RE) : Nat → Str → Str
  | 0, s => s
  | n + 1, s =>
    match reFind r s with
    | some (pos, len, _) =>
      if len = 0 then s
      else s.take pos ++ replaceAllAux r n (s.drop (pos + len))
    | none => s

/-- `Regex::replace_all(s, "")`. -/
def replaceAllRE (r : RE) (s : Str) : Str := replaceAllAux r (s.length + 1) s

/-- Sequence a list of regexes. -/
def reSeqAll : List RE → RE
  | [] => .eps
  | [r] => r
  | r :: rs => .seq r (reSeqAll rs)

/-- Alternation over a list of regexes, preferring earlier entries. -/
def reAltAll : List RE → RE
  | [] => .eps
  | [r] => r
  | r :: rs => .alt r (reAltAll rs)

/-- Case-sensitive literal word. -/
def reLits (w : Str) : RE := reSeqAll (w.map RE.lit)

/-- Case-insensitive literal word (under `(?i)`). -/
def reLitsCI (w : Str) : RE := reSeqAll (w.map RE.litCI)

/-- `r{m}`: exactly `m` repetitions. -/
def reRepExact (r : RE) : Nat → RE
  | 0 => .eps
  | n + 1 => .seq r (reRepExact r n)

/-- Up to `n` further repetitions, greedy. -/
def reRepOpt (r : RE) : Nat → RE
  | 0 => .eps
  | n + 1 => .alt (.seq r (reRepOpt r n)) .eps

/-- `r{m,n}` greedy. -/
def reRep (r : RE) (m n : Nat) : RE := .seq (reRepExact r m) (reRepOpt r (n - m))

/-- `.+?`: lazy plus. -/
def reLazyPlusAny : RE := .seq .anyNoNL (.starL .anyNoNL)

/-! ## title_parser.rs -/

/-- The pattern `(?i)(.+?)\s*[Ss](\d{1,2})\s*[Ee](\d{1,3})` of
`try_parse_season_episode`. -/
def reSeasonEpisode : RE :=
  reSeqAll [.group 1 reLazyPlusAny,
            .star .wsCls, .inSet ['S', 's'],
            .group 2 (reRep .digit 1 2),
            .star .wsCls, .inSet ['E', 'e'],
            .group 3 (reRep .digit 1 3)]

/-- The pattern `(?i)(.+?)\s*(?:Episode|Ep\.?)\s*(\d{1,3})` of
`try_parse_episode_keyword`. -/
def reEpisodeKeyword : RE :=
  reSeqAll [.group 1 reLazyPlusAny,
            .star .wsCls,
            .alt (reLitsCI "Episode".toList)
              (.seq (reLitsCI "Ep".toList) (.opt (.lit '.'))),
            .star .wsCls,
            .group 2 (reRep .digit 1 3)]

/-- The pattern `(.+?)\s*-\s*(\d{1,3})(?:\s*[\[\(]|\s*\.|\s*$)` of
`try_parse_dash_number`. -/
def reDashNumber : RE :=
  reSeqAll [.group 1 reLazyPlusAny,
            .star .wsCls, .lit '-', .star .wsCls,
            .group 2 (reRep .digit 1 3),
            reAltAll [.seq (.star .wsCls) (.inSet ['[', '(']),
                      .seq (.star .wsCls) (.lit '.'),
                      .seq (.star .wsCls) .eos]]

/-- The pattern `^\s*\[[^\]]+\]\s*` of `try_parse_bracketed` and `clean_title`
(the `^` anchor is expressed by applying it with `replaceAtStart`). -/
def reSubgroupTag : RE :=
  reSeqAll [.star .wsCls, .lit '[',
            .seq (.notInSet [']']) (.star (.notInSet [']'])),
            .lit ']', .star .wsCls]

/-- The quality-tag pattern of `clean_title`:
`[\[\(]\s*(?:\d{3,4}p|BD|HEVC|x264|x265|AAC|FLAC|10bit|Hi10P|WEB-DL|WEB|BDRip|BluRay)\s*[\]\)]`
(case sensitive, alternatives in source order). -/
def reQualityTag : RE :=
  reSeqAll [.inSet ['[', '('], .star .wsCls,
            reAltAll [.seq (reRep .digit 3 4) (.lit 'p'),
                      reLits "BD".toList, reLits "HEVC".toList,
                      reLits "x264".toList, reLits "x265".toList,
                      reLits "AAC".toList, reLits "FLAC".toList,
                      reLits "10bit".toList, reLits "Hi10P".toList,
                      reLits "WEB-DL".toList, reLits "WEB".toList,
                      reLits "BDRip".toList, reLits "BluRay".toList],
            .star .wsCls, .inSet [']', ')']]

/-- The trailing-hash pattern `\s*\[[A-Fa-f0-9]{8}\]\s*$` of `clean_title`. -/
def reHashTag : RE :=
  reSeqAll [.star .wsCls, .lit '[', reRepExact .hexDigit 8, .lit ']',
            .star .wsCls, .eos]

/-- The player-chrome suffixes of `remove_player_suffix`, in source order.
The last entry reproduces the mojibake en-dash variant literally present in
the source (`" â€“ VLC media player"`). -/
def playerSuffixes : List Str :=
  [" - VLC media player", " - VLC", " - mpv", " - MPC-HC", " - MPC-BE",
   " - Media Player Classic", " - Windows Media Player", " - PotPlayer",
   " â€“ VLC media player"].map String.toList

/-- The suffix-search loop of `remove_player_suffix`: the first suffix in
source order whose lowercase form occurs in the lowercased title wins, and its
rightmost byte offset is returned. -/
def findPlayerSuffix (low : Str) : List Str → Option Nat
  | [] => none
  | suf :: rest =>
    match rfindPos low (toLowerStr suf) with
    | some p => some p
    | none => findPlayerSuffix low rest

/-- `title_parser::remove_player_suffix`. The Rust code takes the byte offset
returned by `rfind` on the lowercased string and slices the original string at
that offset (`result[..pos]`), which panics (`none`) when the offset is not a
character boundary of the original. -/
def remove_player_suffix (title : Str) : Option Str :=
  match findPlayerSuffix (toLowerStr title) playerSuffixes with
  | some pos => (takeBytes title pos).map trimStr
  | none => some (trimStr title)

/-- Replace every occurrence of the character `a` by `b`
(Rust `str::replace` with one-character pattern and replacement). -/
def replaceChar (a b : Char) (s : Str) : Str :=
  s.map (fun c => if c = a then b else c)

/-- The extension search of `normalize_separators`: the first extension of
`videoExtensions` (the same list as in `media_player.rs`) that the lowercased
string ends with. -/
def findNSExt (s : Str) : Option Str :=
  videoExtensions.find? (fun e => e.isSuffixOf (toLowerStr s))

/-- The shared tail of `normalize_separators`: underscores to spaces, dots to
spaces, whitespace runs collapsed, the detached extension reattached, then
trimmed. -/
def nsFinish (body ext : Str) : Str :=
  trimStr (collapseWS (replaceChar '.' ' ' (replaceChar '_' ' ' body)) ++ ext)

/-- `title_parser::normalize_separators`. The detachment of a recognised
trailing extension slices the original string at `result.len() - ext.len()`
bytes (the extensions are ASCII, so `ext.len()` equals their character
count); a non-boundary slice models the Rust panic as `none`. -/
def normalize_separators (title : Str) : Option Str :=
  match findNSExt title with
  | some ext =>
    match takeBytes title (utf8Len title - ext.length) with
    | none => none
    | some body => some (nsFinish body ext)
  | none => some (nsFinish title [])

/-- The extension list of `clean_title` (shorter than the one of
`normalize_separators`). -/
def ctExtensions : List Str :=
  [".mkv", ".mp4", ".avi", ".webm", ".m4v"].map String.toList

/-- The extension-stripping loop of `clean_title`: unlike
`remove_player_suffix` this loop does not break, so several extensions can be
stripped in sequence. -/
def ctStripExt : List Str → Str → Option Str
  | [], s => some s
  | e :: rest, s =>
    if e.isSuffixOf (toLowerStr s) then
      match takeBytes s (utf8Len s - e.length) with
      | none => none
      | some s2 => ctStripExt rest s2
    else ctStripExt rest s

/-- Rust `str::trim_end_matches('-')`. -/
def dropTrailDash (s : Str) : Str :=
  (s.reverse.dropWhile (fun c => c = '-')).reverse

/-- `title_parser::clean_title`. -/
def clean_title (title : Str) : Option Str :=
  match ctStripExt ctExtensions title with
  | none => none
  | some s1 =>
    let s2 := replaceAllRE reQualityTag s1
    let s3 := replaceAtStart reSubgroupTag s2
    let s4 := replaceFirstRE reHashTag s3
    some (trimStr (dropTrailDash (trimStr s4)))

/-- Rust `str::parse::<i32>` restricted to the all-digit strings produced by
the `\d{1,2}` / `\d{1,3}` capture groups (1 to 3 ASCII digits, so the i32
range is never exceeded). -/
def parseDigits (s : Str) : Option Int :=
  if s ≠ [] ∧ s.all (fun c => '0' ≤ c && c ≤ '9') then
    some (Int.ofNat (s.foldl (fun acc c => acc * 10 + (c.toNat - '0'.toNat)) 0))
  else none

/-- The `ParsedTitle` struct of `title_parser.rs`. -/
structure ParsedTitle where
  title : Option Str
  episode : Option Int
  season : Option Int
deriving DecidableEq

/-- `title_parser::try_parse_season_episode`. The outer `Option` models
panics (raised inside `clean_title`); the inner one is the `Option` the Rust
function returns. -/
def try_parse_season_episode (t : Str) : Option (Option ParsedTitle) :=
  match reFind reSeasonEpisode t with
  | none => some none
  | some (_, _, caps) =>
    match capGet caps 1 with
    | none => some none
    | some g1 =>
      match clean_title g1 with
      | none => none
      | some ct =>
        match capGet caps 2 with
        | none => some none
        | some g2 =>
          match parseDigits g2 with
          | none => some none
          | some season =>
            match capGet caps 3 with
            | none => some none
            | some g3 =>
              match parseDigits g3 with
              | none => some none
              | some episode => some (some ⟨some ct, some episode, some season⟩)

/-- `title_parser::try_parse_episode_keyword`. -/
def try_parse_episode_keyword (t : Str) : Option (Option ParsedTitle) :=
  match reFind reEpisodeKeyword t with
  | none => some none
  | some (_, _, caps) =>
    match capGet caps 1 with
    | none => some none
    | some g1 =>
      match clean_title g1 with
      | none => none
      | some ct =>
        match capGet caps 2 with
        | none => some none
        | some g2 =>
          match parseDigits g2 with
          | none => some none
          | some episode => some (some ⟨some ct, some episode, none⟩)

/-- `title_parser::try_parse_dash_number`. -/
def try_parse_dash_number (t : Str) : Option (Option ParsedTitle) :=
  match reFind reDashNumber t with
  | none => some none
  | some (_, _, caps) =>
    match capGet caps 1 with
    | none => some none
    | some g1 =>
      match clean_title g1 with
      | none => none
      | some ct =>
        match capGet caps 2 with
        | none => some none
        | some g2 =>
          match parseDigits g2 with
          | none => some none
          | some episode => some (some ⟨some ct, some episode, none⟩)

/-- `title_parser::try_parse_bracketed`: strip one leading bracketed tag and
re-run the dash-number strategy. -/
def try_parse_bracketed (t : Str) : Option (Option ParsedTitle) :=
  try_parse_dash_number (replaceAtStart reSubgroupTag t)

/-- `title_parser::parse_window_title`: the ordered strategy cascade. `none`
models a panic inside one of the steps actually executed. -/
def parse_window_title (w : Str) : Option ParsedTitle :=
  match remove_player_suffix w with
  | none => none
  | some cleaned =>
    match normalize_separators cleaned with
    | none => none
    | some normalized =>
      match try_parse_season_episode normalized with
      | none => none
      | some (some r) => some r
      | some none =>
        match try_parse_episode_keyword normalized with
        | none => none
        | some (some r) => some r
        | some none =>
          match try_parse_dash_number normalized with
          | none => none
          | some (some r) => some r
          | some none =>
            match try_parse_bracketed normalized with
            | none => none
            | some (some r) => some r
            | some none =>
              match clean_title normalized with
              | none => none
              | some ct => some ⟨some ct, none, none⟩

/-! ## anilist.rs — progressive search

The external catalog collaborator (`reqwest` + AniList GraphQL) is abstracted
as a function from a query string to `Except` an error message, an optional
candidate — exactly the observable behaviour of one iteration's network call
in `progressive_search_anime` (`Err` models a transport or response-parse
failure, `Ok none` a response with no `Media`). The second component of the
results below counts how many catalog calls were issued. -/

/-- The `TitleSearchResult` struct of `anilist.rs`. -/
structure TitleSearchResult where
  english : Option Str
  romaji : Option Str
deriving DecidableEq

/-- The `ProgressiveSearchResult` struct of `anilist.rs`. -/
structure ProgressiveSearchResult where
  title : TitleSearchResult
  matched_query : Str
  words_used : Nat
  total_words : Nat
deriving DecidableEq

/-- The validation step of `progressive_search_anime`: every word of the
lowercased query must be a substring of the lowercased english or romaji
title (absent fields default to the empty string). -/
def validateMatch (queryLower : Str) (m : TitleSearchResult) : Bool :=
  let eng := (m.english.map toLowerStr).getD []
  let rom := (m.romaji.map toLowerStr).getD []
  (splitWS queryLower).all (fun w => containsSub eng w || containsSub rom w)

/-- The widening loop of `progressive_search_anime`, iterating over the word
counts still to try; returns the result together with the number of catalog
calls issued. -/
def progressiveLoop (catalog : Str → Except Str (Option TitleSearchResult))
    (words : List Str) (total : Nat) :
    List Nat → Except Str (Option ProgressiveSearchResult) × Nat
  | [] => (.ok none, 0)
  | wc :: rest =>
    let q := joinWords (words.take wc)
    match catalog q with
    | .error e => (.error e, 1)
    | .ok none =>
      ((progressiveLoop catalog words total rest).1,
       (progressiveLoop catalog words total rest).2 + 1)
    | .ok (some m) =>
      if validateMatch (toLowerStr q) m then
        (.ok (some ⟨m, q, wc, total⟩), 1)
      else
        ((progressiveLoop catalog words total rest).1,
         (progressiveLoop catalog words total rest).2 + 1)

/-- `anilist::progressive_search_anime`, parameterised by the catalog
collaborator. The word counts tried are `1, 2, …, total` in order. -/
def progressive_search_anime (catalog : Str → Except Str (Option TitleSearchResult))
    (title : Str) : Except Str (Option ProgressiveSearchResult) × Nat :=
  let words := splitWS title
  if words.isEmpty then (.ok none, 0)
  else progressiveLoop catalog words words.length (List.range' 1 words.length)

/-- One widening step does not stop the loop: the catalog call succeeded and
returned either no candidate or a candidate rejected by validation. -/
def stepContinues (catalog : Str → Except Str (Option TitleSearchResult))
    (q : Str) : Bool :=
  match catalog q with
  | .ok none => true
  | .ok (some m) => !validateMatch (toLowerStr q) m
  | .error _ => false

/-! ## lib.rs — the AniList lookup cache -/

/-- The `AnimeTitle` struct of `anilist.rs`. -/
structure AnimeTitle where
  romaji : Option Str
  english : Option Str
  native : Option Str
deriving DecidableEq

/-- The `CoverImage` struct of `anilist.rs`. -/
structure CoverImage where
  large : Option Str
  medium : Option Str
deriving DecidableEq

/-- The `Anime` struct of `anilist.rs`. -/
structure Anime where
  id : Int
  title : AnimeTitle
  cover_image : CoverImage
  episodes : Option Int
  status : Option Str
  description : Option Str
deriving DecidableEq

/-- The `CacheEntry` struct of `lib.rs`; `Instant` timestamps are modelled as
naturals (seconds on a monotonic clock). -/
structure CacheEntry where
  anime : Option Anime
  timestamp : Nat
deriving DecidableEq

/-- The `ANILIST_CACHE` map. `HashMap` is modelled as an association list in
which `insert` prepends and lookup takes the most recent binding. -/
abbrev AnilistCache := List (Str × CacheEntry)

/-- `HashMap::get`. -/
def cacheLookup (cache : AnilistCache) (title : Str) : Option CacheEntry :=
  (cache.find? (fun p => p.1 == title)).map (fun p => p.2)

/-- `CACHE_DURATION`: `Duration::from_secs(300)` (five minutes). -/
def CACHE_DURATION : Nat := 300

/-- `lib::get_cached_anime` at time `now`: a hit only when an entry exists and
`entry.timestamp.elapsed() < CACHE_DURATION`. -/
def get_cached_anime (cache : AnilistCache) (now : Nat) (title : Str) :
    Option (Option Anime) :=
  match cacheLookup cache title with
  | some entry => if now - entry.timestamp < CACHE_DURATION then some entry.anime else none
  | none => none

/-- `lib::set_cached_anime` at time `now`: unconditionally insert an entry
timestamped `Instant::now()`. -/
def set_cached_anime (cache : AnilistCache) (now : Nat) (title : Str)
    (anime : Option Anime) : AnilistCache :=
  (title, ⟨anime, now⟩) :: cache

/-- The `search_with_cache` helper of `lib::detect_anime_command`,
parameterised by `anilist::search_anime` (whose `Vec` result the code reduces
with `into_iter().next()`; an `Err` from it is logged and becomes `None`).
Result: the value returned, the cache after the call, and whether resolution
(the catalog search) was invoked. -/
def search_with_cache (searchAnime : Str → Except Str (List Anime))
    (cache : AnilistCache) (now : Nat) (title : Str) :
    Option Anime × AnilistCache × Bool :=
  match get_cached_anime cache now title with
  | some cached => (cached, cache, false)
  | none =>
    let result : Option Anime :=
      match searchAnime title with
      | .ok results => results.head?
      | .error _ => none
    (result, set_cached_anime cache now title result, true)

/-- The normalization step of the spec (§4.2): player-suffix stripping
followed by separator normalization, exactly as `parse_window_title` composes
them. -/
def normalizeTitle (w : Str) : Option Str :=
  match remove_player_suffix w with
  | none => none
  | some cleaned => normalize_separators cleaned

/-- Strings in the normal form produced by `collapseWS`: every whitespace
character is a single space not followed by further whitespace. -/
def collapsedOK : Str → Bool
  | [] => true
  | [c] => !isWS c || (c == ' ')
  | c :: d :: cs => (!isWS c || ((c == ' ') && !isWS d)) && collapsedOK (d :: cs)

/-- The per-extension facts about the entries of `videoExtensions` used in the
idempotence proof: they are lowercase ASCII (fixed by `toLowerStr`, one byte
per character), contain a dot, and start and end with non-whitespace. -/
def extGood (e : Str) : Bool :=
  decide (toLowerStr e = e) && decide ('.' ∈ e) && decide (utf8Len e = e.length) &&
  (match e with | c :: _ => !isWS c | [] => false) &&
  (match e.reverse with | c :: _ => !isWS c | [] => false)

/-! ## Claims -/

/-- Claim C2 (code_bug evidence): `remove_player_suffix` panics on the input
"ẞẞ - VLC". Lowercasing maps each 3-byte 'ẞ' to the 2-byte 'ß', so
`rfind(" - vlc")` on the lowercased string returns byte offset 4, and slicing
the original string at byte 4 falls inside the second 'ẞ' (whose bytes span
3..6) — a char-boundary panic, contradicting the claim that every core
function is total and never panics. -/
theorem c2_remove_player_suffix_panics :
    remove_player_suffix "ẞẞ - VLC".toList = none := by decide

/-- Claim C4: the classifier satisfies the spec's three example equations.
The third example elides (with "...") the browser title exercised by the
repository's own test, which contains the "Hianime" brand name. -/
theorem c4_classifier_examples :
    detect_media_player "My Video - VLC media player".toList = some MediaPlayer.VLC ∧
    detect_media_player "Visual Studio Code".toList = none ∧
    detect_media_player
        "Chitose Is In The Ramune Bottle Episode 1 English Sub at Hianime - Google Chrome".toList
      = some MediaPlayer.Browser := by
  exact ⟨by decide, by decide, by decide⟩

/-- Claim C8: parsing "[SubsPlease] Jujutsu Kaisen - 23 [1080p].mkv" yields
title "Jujutsu Kaisen" and episode 23 (the dash-number strategy matches, and
`clean_title` removes the leading subgroup tag from the captured text; the
quality tag, extension and episode number are outside the capture). -/
theorem c8_parse_subsplease_example :
    parse_window_title "[SubsPlease] Jujutsu Kaisen - 23 [1080p].mkv".toList =
      some ⟨some "Jujutsu Kaisen".toList, some 23, none⟩ := by decide

/-- Claim C1 (counterexample): with an empty cache and a catalog resolver
that fails, `search_with_cache` does not leave the cache unchanged — it
swallows the error and inserts a fresh entry recording the absent outcome. -/
theorem c1_counterexample :
    search_with_cache (fun _ => .error "request failed".toList) [] 0 "frieren".toList =
      (none, [("frieren".toList, ⟨none, 0⟩)], true) ∧
    ([("frieren".toList, (⟨none, 0⟩ : CacheEntry))] : AnilistCache) ≠ [] := by
  exact ⟨by decide, by decide⟩

/-- Claim C1 (amended): when catalog resolution fails on a cache miss, the
error is converted to the absent outcome and the cache entry for the title is
overwritten with it (timestamped at the failure time), rather than the cache
being left unchanged. -/
theorem c1_error_caches_none (searchAnime : Str → Except Str (List Anime))
    (cache : AnilistCache) (now : Nat) (title : Str) (e : Str)
    (herr : searchAnime title = .error e)
    (hmiss : get_cached_anime cache now title = none) :
    search_with_cache searchAnime cache now title =
      (none, set_cached_anime cache now title none, true) := by
  simp only [search_with_cache, hmiss, herr]

/-- Witness for `c1_error_caches_none` at a concrete failing resolver. -/
theorem c1_error_caches_none_witness :
    search_with_cache (fun _ => .error "request failed".toList) [] 3 "frieren".toList =
      (none, set_cached_anime [] 3 "frieren".toList none, true) :=
  c1_error_caches_none (fun _ => .error "request failed".toList) [] 3 "frieren".toList
    "request failed".toList rfl rfl

/-- Claim C7: an entry recorded at time `t` is replayed (resolution not
invoked, cache unchanged) by any lookup strictly before `t + CACHE_DURATION`
— including when the stored value is the absent outcome, since `v` is an
arbitrary `Option Anime` — and any lookup at or after `t + CACHE_DURATION`
ignores the entry, invokes resolution and overwrites the entry with the new
outcome. -/
theorem c7_cache_ttl (searchAnime : Str → Except Str (List Anime))
    (cache : AnilistCache) (t now : Nat) (title : Str) (v : Option Anime)
    (hmono : t ≤ now) :
    (now < t + CACHE_DURATION →
      search_with_cache searchAnime (set_cached_anime cache t title v) now title =
        (v, set_cached_anime cache t title v, false)) ∧
    (t + CACHE_DURATION ≤ now → ∀ results, searchAnime title = .ok results →
      search_with_cache searchAnime (set_cached_anime cache t title v) now title =
        (results.head?,
         set_cached_anime (set_cached_anime cache t title v) now title results.head?,
         true)) := by
  constructor
  · intro hlt
    have hhit : now - t < CACHE_DURATION := by omega
    simp [search_with_cache, get_cached_anime, cacheLookup, set_cached_anime, hhit]
  · intro hge results hok
    have hmiss : ¬ now - t < CACHE_DURATION := by omega
    simp [search_with_cache, get_cached_anime, cacheLookup, set_cached_anime, hmiss, hok]

/-- Witness for `c7_cache_ttl`: a "no match" entry recorded at time 0 is
replayed at time 10 and bypassed (with re-resolution and overwrite) at time
300. -/
theorem c7_cache_ttl_witness :
    search_with_cache (fun _ => .ok []) (set_cached_anime [] 0 "k".toList none)
        10 "k".toList =
      (none, set_cached_anime [] 0 "k".toList none, false) ∧
    search_with_cache (fun _ => .ok []) (set_cached_anime [] 0 "k".toList none)
        300 "k".toList =
      (([] : List Anime).head?,
       set_cached_anime (set_cached_anime [] 0 "k".toList none) 300 "k".toList
         ([] : List Anime).head?,
       true) := by
  constructor
  · exact (c7_cache_ttl (fun _ => .ok []) [] 0 10 "k".toList none (by omega)).1 (by decide)
  · exact (c7_cache_ttl (fun _ => .ok []) [] 0 300 "k".toList none (by omega)).2
      (by decide) [] rfl

/-- Claim C10 (counterexample): the parser does not return a `ParsedTitle`
for every input string — on "ẞẞ - VLC" the suffix-stripping step panics
(see `c2_remove_player_suffix_panics`), so no `ParsedTitle` is produced at
all. -/
theorem c10_counterexample :
    parse_window_title "ẞẞ - VLC".toList = none := by decide

/-- Claim C3 (counterexample): normalization is not idempotent. On
"x_-_VLC" no player suffix is found (the separators hide it), separator
normalization turns the underscores into spaces yielding "x - VLC", and a
second normalization pass then strips the newly-formed " - VLC" suffix,
yielding "x". -/
theorem c3_counterexample :
    normalizeTitle "x_-_VLC".toList = some "x - VLC".toList ∧
    normalizeTitle "x - VLC".toList = some "x".toList ∧
    (normalizeTitle "x_-_VLC".toList).bind normalizeTitle ≠
      normalizeTitle "x_-_VLC".toList := by
  exact ⟨by decide, by decide, by decide⟩

/-- Auxiliary: the widening loop issues at most one catalog call per word
count in its list. -/
theorem progressiveLoop_count_le (catalog : Str → Except Str (Option TitleSearchResult))
    (words : List Str) (total : Nat) :
    ∀ l : List Nat, (progressiveLoop catalog words total l).2 ≤ l.length := by
  intro l
  induction l with
  | nil => simp [progressiveLoop]
  | cons wc rest ih =>
    cases hc : catalog (joinWords (words.take wc)) with
    | error e => simp [progressiveLoop, hc]
    | ok o =>
      cases o with
      | none =>
        simp only [progressiveLoop, hc, List.length_cons]
        omega
      | some m =>
        by_cases hv : validateMatch (toLowerStr (joinWords (words.take wc))) m = true
        · simp [progressiveLoop, hc, hv]
        · simp only [progressiveLoop, hc, hv, Bool.false_eq_true, if_false, List.length_cons]
          omega

/-- Auxiliary: a `MatchResult` produced by the widening loop uses a word
count from the list and carries the given total. -/
theorem progressiveLoop_result_shape (catalog : Str → Except Str (Option TitleSearchResult))
    (words : List Str) (total : Nat) :
    ∀ (l : List Nat) (mr : ProgressiveSearchResult),
      (progressiveLoop catalog words total l).1 = .ok (some mr) →
      mr.words_used ∈ l ∧ mr.total_words = total := by
  intro l
  induction l with
  | nil => intro mr h; simp [progressiveLoop] at h
  | cons wc rest ih =>
    intro mr h
    cases hc : catalog (joinWords (words.take wc)) with
    | error e => simp [progressiveLoop, hc] at h
    | ok o =>
      cases o with
      | none =>
        simp only [progressiveLoop, hc] at h
        rcases ih mr h with ⟨h1, h2⟩
        exact ⟨List.mem_cons_of_mem _ h1, h2⟩
      | some m =>
        by_cases hv : validateMatch (toLowerStr (joinWords (words.take wc))) m = true
        · simp only [progressiveLoop, hc, hv, if_true, Except.ok.injEq,
            Option.some.injEq] at h
          subst h
          exact ⟨List.mem_cons_self _ _, rfl⟩
        · simp only [progressiveLoop, hc, hv, Bool.false_eq_true, if_false] at h
          rcases ih mr h with ⟨h1, h2⟩
          exact ⟨List.mem_cons_of_mem _ h1, h2⟩

/-- Claim C5: for an input title of `N` words the matcher issues at most `N`
catalog calls; any `MatchResult` it returns satisfies
`1 ≤ words_used ≤ total_words = N`; and for a zero-word input it returns the
empty result having issued zero calls. -/
theorem c5_progressive_bounds (catalog : Str → Except Str (Option TitleSearchResult))
    (title : Str) :
    (progressive_search_anime catalog title).2 ≤ (splitWS title).length ∧
    (∀ mr, (progressive_search_anime catalog title).1 = .ok (some mr) →
      1 ≤ mr.words_used ∧ mr.words_used ≤ mr.total_words ∧
      mr.total_words = (splitWS title).length) ∧
    ((splitWS title).length = 0 →
      progressive_search_anime catalog title = (.ok none, 0)) := by
  unfold progressive_search_anime
  cases he : (splitWS title).isEmpty with
  | true =>
    have h0 : splitWS title = [] := List.isEmpty_iff.mp he
    refine ⟨by simp [h0], ?_, by simp [h0]⟩
    intro mr h
    simp [h0] at h
  | false =>
    have hne : splitWS title ≠ [] := by
      intro hnil
      rw [hnil] at he
      simp at he
    simp only [he, Bool.false_eq_true, if_false]
    refine ⟨?_, ?_, ?_⟩
    · have := progressiveLoop_count_le catalog (splitWS title) (splitWS title).length
        (List.range' 1 (splitWS title).length)
      simpa using this
    · intro mr h
      rcases progressiveLoop_result_shape catalog (splitWS title) (splitWS title).length
        (List.range' 1 (splitWS title).length) mr h with ⟨h1, h2⟩
      rcases List.mem_range'.mp h1 with ⟨i, hi, heq⟩
      refine ⟨by omega, by omega, h2⟩
    · intro h0
      exact absurd (List.length_eq_zero.mp h0) hne

/-- Witness for `c5_progressive_bounds`, instantiating the `MatchResult`
bounds at a catalog that echoes the query and the zero-word case at the
empty title. -/
theorem c5_progressive_bounds_witness :
    (1 ≤ 1 ∧ 1 ≤ 2 ∧ 2 = (splitWS "ab cd".toList).length) ∧
    progressive_search_anime (fun q => .ok (some ⟨some q, some q⟩)) "".toList =
      (.ok none, 0) := by
  constructor
  · exact (c5_progressive_bounds (fun q => .ok (some ⟨some q, some q⟩)) "ab cd".toList).2.1
      ⟨⟨some "ab".toList, some "ab".toList⟩, "ab".toList, 1, 2⟩ rfl
  · exact (c5_progressive_bounds (fun q => .ok (some ⟨some q, some q⟩)) "".toList).2.2 rfl

/-- Auxiliary: if every word count before `wc` lets the loop continue and the
catalog call at `wc` fails, the loop returns that failure having issued
exactly `wc + 1 - s` calls (the failing one included), never reaching later
word counts. -/
theorem progressiveLoop_error (catalog : Str → Except Str (Option TitleSearchResult))
    (words : List Str) (total : Nat) :
    ∀ (n s wc : Nat) (e : Str), s ≤ wc → wc < s + n →
      (∀ j, s ≤ j → j < wc → stepContinues catalog (joinWords (words.take j)) = true) →
      catalog (joinWords (words.take wc)) = .error e →
      progressiveLoop catalog words total (List.range' s n) = (.error e, wc + 1 - s) := by
  intro n
  induction n with
  | zero => intro s wc e h1 h2 _ _; omega
  | succ n ih =>
    intro s wc e h1 h2 hcont herr
    rw [List.range'_succ]
    rcases Nat.eq_or_lt_of_le h1 with rfl | hlt
    · simp [progressiveLoop, herr, Nat.add_sub_cancel_left]
    · have hc := hcont s (Nat.le_refl s) hlt
      unfold stepContinues at hc
      cases hcs : catalog (joinWords (words.take s)) with
      | error e2 => rw [hcs] at hc; simp at hc
      | ok o =>
        cases o with
        | none =>
          have hrec := ih (s + 1) wc e (by omega) (by omega)
            (fun j hj1 hj2 => hcont j (by omega) hj2) herr
          simp only [progressiveLoop, hcs, hrec]
          have harith : wc + 1 - (s + 1) + 1 = wc + 1 - s := by omega
          rw [harith]
        | some m =>
          rw [hcs] at hc
          simp only [Bool.not_eq_true'] at hc
          have hrec := ih (s + 1) wc e (by omega) (by omega)
            (fun j hj1 hj2 => hcont j (by omega) hj2) herr
          simp only [progressiveLoop, hcs, hc, Bool.false_eq_true, if_false, hrec]
          have harith : wc + 1 - (s + 1) + 1 = wc + 1 - s := by omega
          rw [harith]

/-- Auxiliary: if every word count in the range lets the loop continue, the
loop returns the successful empty result. -/
theorem progressiveLoop_exhaust (catalog : Str → Except Str (Option TitleSearchResult))
    (words : List Str) (total : Nat) :
    ∀ n s, (∀ j, s ≤ j → j < s + n → stepContinues catalog (joinWords (words.take j)) = true) →
      (progressiveLoop catalog words total (List.range' s n)).1 = .ok none := by
  intro n
  induction n with
  | zero => intro s _; simp [progressiveLoop]
  | succ n ih =>
    intro s hcont
    rw [List.range'_succ]
    have hc := hcont s (Nat.le_refl s) (by omega)
    unfold stepContinues at hc
    cases hcs : catalog (joinWords (words.take s)) with
    | error e2 => rw [hcs] at hc; simp at hc
    | ok o =>
      cases o with
      | none =>
        simp only [progressiveLoop, hcs]
        exact ih (s + 1) (fun j hj1 hj2 => hcont j (by omega) (by omega))
      | some m =>
        rw [hcs] at hc
        simp only [Bool.not_eq_true'] at hc
        simp only [progressiveLoop, hcs, hc, Bool.false_eq_true, if_false]
        exact ih (s + 1) (fun j hj1 hj2 => hcont j (by omega) (by omega))

/-- Claim C6: a failing catalog call is propagated immediately as an error —
the loop stops with exactly that failing call issued, never converting the
failure into an empty result — and if every word count from 1 to the total is
tried without a validated candidate, the matcher returns the successful empty
result. -/
theorem c6_failure_propagation (catalog : Str → Except Str (Option TitleSearchResult))
    (title : Str) :
    (∀ wc e, 1 ≤ wc → wc ≤ (splitWS title).length →
      (∀ j, 1 ≤ j → j < wc →
        stepContinues catalog (joinWords ((splitWS title).take j)) = true) →
      catalog (joinWords ((splitWS title).take wc)) = .error e →
      progressive_search_anime catalog title = (.error e, wc)) ∧
    ((∀ j, 1 ≤ j → j ≤ (splitWS title).length →
        stepContinues catalog (joinWords ((splitWS title).take j)) = true) →
      (progressive_search_anime catalog title).1 = .ok none) := by
  constructor
  · intro wc e h1 h2 hcont herr
    unfold progressive_search_anime
    have hne : (splitWS title).isEmpty = false := by
      cases he : (splitWS title).isEmpty with
      | true =>
        have := List.isEmpty_iff.mp he
        rw [this] at h2
        simp at h2
        omega
      | false => rfl
    simp only [hne, Bool.false_eq_true, if_false]
    have := progressiveLoop_error catalog (splitWS title) (splitWS title).length
      (splitWS title).length 1 wc e h1 (by omega) hcont herr
    rw [this]
    have : wc + 1 - 1 = wc := by omega
    rw [this]
  · intro hcont
    unfold progressive_search_anime
    cases he : (splitWS title).isEmpty with
    | true => simp [he]
    | false =>
      simp only [he, Bool.false_eq_true, if_false]
      exact progressiveLoop_exhaust catalog (splitWS title) (splitWS title).length
        (splitWS title).length 1 (fun j hj1 hj2 => hcont j hj1 (by omega))

/-- Witness for `c6_failure_propagation`: a catalog failing on the first call
stops the search with one call, and a catalog that always answers "no
candidate" yields the empty result. -/
theorem c6_failure_propagation_witness :
    progressive_search_anime (fun _ => .error "boom".toList) "ab cd".toList =
      (.error "boom".toList, 1) ∧
    (progressive_search_anime (fun _ => .ok none) "ab cd".toList).1 = .ok none := by
  constructor
  · exact (c6_failure_propagation (fun _ => .error "boom".toList) "ab cd".toList).1 1
      "boom".toList (Nat.le_refl 1) (by decide) (fun j hj1 hj2 => by omega) rfl
  · exact (c6_failure_propagation (fun _ => .ok none) "ab cd".toList).2
      (fun j _ _ => rfl)

/-- Auxiliary: when the season-episode strategy succeeds, all three fields of
the result are present. -/
theorem try_parse_season_episode_shape (t : Str) (p : ParsedTitle)
    (h : try_parse_season_episode t = some (some p)) :
    p.title.isSome ∧ p.episode.isSome ∧ p.season.isSome := by
  unfold try_parse_season_episode at h
  repeat' split at h
  all_goals simp_all
  subst h
  simp

/-- Auxiliary: when the episode-keyword strategy succeeds, title and episode
are present and season is absent. -/
theorem try_parse_episode_keyword_shape (t : Str) (p : ParsedTitle)
    (h : try_parse_episode_keyword t = some (some p)) :
    p.title.isSome ∧ p.episode.isSome ∧ p.season = none := by
  unfold try_parse_episode_keyword at h
  repeat' split at h
  all_goals simp_all
  subst h
  simp

/-- Auxiliary: when the dash-number strategy succeeds, title and episode are
present and season is absent. -/
theorem try_parse_dash_number_shape (t : Str) (p : ParsedTitle)
    (h : try_parse_dash_number t = some (some p)) :
    p.title.isSome ∧ p.episode.isSome ∧ p.season = none := by
  unfold try_parse_dash_number at h
  repeat' split at h
  all_goals simp_all
  subst h
  simp

/-- Auxiliary: the bracketed strategy delegates to the dash-number strategy,
so its successful results have the same shape. -/
theorem try_parse_bracketed_shape (t : Str) (p : ParsedTitle)
    (h : try_parse_bracketed t = some (some p)) :
    p.title.isSome ∧ p.episode.isSome ∧ p.season = none :=
  try_parse_dash_number_shape _ p h

/-- Claim C9: whenever the parser returns a `ParsedTitle` whose season is
present, its episode is present as well — the season-episode strategy is the
only producer of `season` and it always sets `episode` alongside. -/
theorem c9_season_implies_episode (w : Str) (r : ParsedTitle)
    (h : parse_window_title w = some r) (hs : r.season.isSome) :
    r.episode.isSome := by
  unfold parse_window_title at h
  cases h1 : remove_player_suffix w with
  | none => simp only [h1] at h; exact Option.noConfusion h
  | some cleaned =>
  simp only [h1] at h
  cases h2 : normalize_separators cleaned with
  | none => simp only [h2] at h; exact Option.noConfusion h
  | some normalized =>
  simp only [h2] at h
  cases h3 : try_parse_season_episode normalized with
  | none => simp only [h3] at h; exact Option.noConfusion h
  | some o3 =>
  simp only [h3] at h
  cases o3 with
  | some r0 =>
    cases h
    exact (try_parse_season_episode_shape _ _ h3).2.1
  | none =>
  cases h4 : try_parse_episode_keyword normalized with
  | none => simp only [h4] at h; exact Option.noConfusion h
  | some o4 =>
  simp only [h4] at h
  cases o4 with
  | some r0 =>
    cases h
    rcases try_parse_episode_keyword_shape _ _ h4 with ⟨_, _, hsn⟩
    rw [hsn] at hs
    exact absurd hs (by simp)
  | none =>
  cases h5 : try_parse_dash_number normalized with
  | none => simp only [h5] at h; exact Option.noConfusion h
  | some o5 =>
  simp only [h5] at h
  cases o5 with
  | some r0 =>
    cases h
    rcases try_parse_dash_number_shape _ _ h5 with ⟨_, _, hsn⟩
    rw [hsn] at hs
    exact absurd hs (by simp)
  | none =>
  cases h6 : try_parse_bracketed normalized with
  | none => simp only [h6] at h; exact Option.noConfusion h
  | some o6 =>
  simp only [h6] at h
  cases o6 with
  | some r0 =>
    cases h
    rcases try_parse_bracketed_shape _ _ h6 with ⟨_, _, hsn⟩
    rw [hsn] at hs
    exact absurd hs (by simp)
  | none =>
  cases h7 : clean_title normalized with
  | none => simp only [h7] at h; exact Option.noConfusion h
  | some ct =>
    simp only [h7] at h
    cases h
    exact absurd hs (by simp)

/-- Witness for `c9_season_implies_episode` at the title "A S01E02", parsed
by the season-episode strategy. -/
theorem c9_season_implies_episode_witness :
    (⟨some "A".toList, some 2, some 1⟩ : ParsedTitle).episode.isSome :=
  c9_season_implies_episode "A S01E02".toList ⟨some "A".toList, some 2, some 1⟩
    (by decide) (by decide)

/-- Claim C10 (amended): whenever the parser returns at all (it can panic on
certain non-ASCII inputs, see `c10_counterexample`), the returned
`ParsedTitle` has its title present — every successful strategy sets a title,
and the fallback sets the cleaned normalized input. -/
theorem c10_title_present_when_returns (w : Str) (r : ParsedTitle)
    (h : parse_window_title w = some r) : r.title.isSome := by
  unfold parse_window_title at h
  cases h1 : remove_player_suffix w with
  | none => simp only [h1] at h; exact Option.noConfusion h
  | some cleaned =>
  simp only [h1] at h
  cases h2 : normalize_separators cleaned with
  | none => simp only [h2] at h; exact Option.noConfusion h
  | some normalized =>
  simp only [h2] at h
  cases h3 : try_parse_season_episode normalized with
  | none => simp only [h3] at h; exact Option.noConfusion h
  | some o3 =>
  simp only [h3] at h
  cases o3 with
  | some r0 =>
    cases h
    exact (try_parse_season_episode_shape _ _ h3).1
  | none =>
  cases h4 : try_parse_episode_keyword normalized with
  | none => simp only [h4] at h; exact Option.noConfusion h
  | some o4 =>
  simp only [h4] at h
  cases o4 with
  | some r0 =>
    cases h
    exact (try_parse_episode_keyword_shape _ _ h4).1
  | none =>
  cases h5 : try_parse_dash_number normalized with
  | none => simp only [h5] at h; exact Option.noConfusion h
  | some o5 =>
  simp only [h5] at h
  cases o5 with
  | some r0 =>
    cases h
    exact (try_parse_dash_number_shape _ _ h5).1
  | none =>
  cases h6 : try_parse_bracketed normalized with
  | none => simp only [h6] at h; exact Option.noConfusion h
  | some o6 =>
  simp only [h6] at h
  cases o6 with
  | some r0 =>
    cases h
    exact (try_parse_bracketed_shape _ _ h6).1
  | none =>
  cases h7 : clean_title normalized with
  | none => simp only [h7] at h; exact Option.noConfusion h
  | some ct =>
    simp only [h7] at h
    cases h
    simp

/-- Witness for `c10_title_present_when_returns` at the empty input, which
reaches the fallback arm. -/
theorem c10_title_present_when_returns_witness :
    (⟨some ([] : Str), none, none⟩ : ParsedTitle).title.isSome :=
  c10_title_present_when_returns "".toList ⟨some [], none, none⟩ (by decide)

/-! ## Auxiliary lemmas for the idempotence analysis of `normalize_separators` -/

theorem collapseWS_ne_nil (s : Str) (h : s ≠ []) : collapseWS s ≠ [] := by
  induction s using collapseWS.induct with
  | case1 => exact absurd rfl h
  | case2 c hc => simp [collapseWS, hc]
  | case3 c hc => simp [collapseWS, hc]
  | case4 c d cs hc hd ih => simpa [collapseWS, hc, hd] using ih (by simp)
  | case5 c d cs hc hd ih => simp [collapseWS, hc, hd]
  | case6 c d cs hc ih => simp [collapseWS, hc]

theorem collapseWS_cons_nonws (d : Char) (cs : Str) (h : ¬ isWS d = true) :
    ∃ t, collapseWS (d :: cs) = d :: t := by
  cases cs with
  | nil => exact ⟨[], by simp [collapseWS, h]⟩
  | cons e cs' => exact ⟨collapseWS (e :: cs'), by simp [collapseWS, h]⟩

theorem collapsedOK_tail (c : Char) (cs : Str) (h : collapsedOK (c :: cs) = true) :
    collapsedOK cs = true := by
  cases cs with
  | nil => rfl
  | cons d cs' =>
    rw [show collapsedOK (c :: d :: cs') =
      ((!isWS c || ((c == ' ') && !isWS d)) && collapsedOK (d :: cs')) from rfl,
      Bool.and_eq_true] at h
    exact h.2

theorem collapsedOK_collapseWS (s : Str) : collapsedOK (collapseWS s) = true := by
  induction s using collapseWS.induct with
  | case1 => rfl
  | case2 c hc => simp [collapseWS, collapsedOK, hc]
  | case3 c hc => simp [collapseWS, collapsedOK, hc]
  | case4 c d cs hc hd ih => simpa [collapseWS, hc, hd] using ih
  | case5 c d cs hc hd ih =>
    rcases collapseWS_cons_nonws d cs hd with ⟨t, ht⟩
    rw [collapseWS, if_pos hc, if_neg hd, ht]
    rw [ht] at ih
    simpa [collapsedOK, hd] using ih
  | case6 c d cs hc ih =>
    rcases (List.exists_cons_of_ne_nil (collapseWS_ne_nil (d :: cs) (by simp))) with ⟨rh, rt, hr⟩
    rw [collapseWS, if_neg hc, hr]
    rw [hr] at ih
    simpa [collapsedOK, hc] using ih

theorem collapsedOK_eq_self (s : Str) (h : collapsedOK s = true) : collapseWS s = s := by
  induction s using collapseWS.induct with
  | case1 => rfl
  | case2 c hc =>
    have hsp : c = ' ' := by simpa [collapsedOK, hc] using h
    simp [collapseWS, hc, hsp]
  | case3 c hc => simp [collapseWS, hc]
  | case4 c d cs hc hd ih =>
    exfalso
    simp [collapsedOK, hc, hd] at h
  | case5 c d cs hc hd ih =>
    have hc' : c = ' ' := by
      rw [show collapsedOK (c :: d :: cs) =
        ((!isWS c || ((c == ' ') && !isWS d)) && collapsedOK (d :: cs)) from rfl,
        Bool.and_eq_true] at h
      rcases h with ⟨h1, _⟩
      have h1' : c = ' ' ∧ isWS d = false := by simpa [hc] using h1
      exact h1'.1
    have htl : collapsedOK (d :: cs) = true := collapsedOK_tail c (d :: cs) h
    rw [collapseWS, if_pos hc, if_neg hd, ih htl, hc']
  | case6 c d cs hc ih =>
    have htl : collapsedOK (d :: cs) = true := collapsedOK_tail c (d :: cs) h
    rw [collapseWS, if_neg hc, ih htl]

theorem collapsedOK_append_left (s t : Str) (h : collapsedOK (s ++ t) = true) :
    collapsedOK s = true := by
  induction s using collapsedOK.induct with
  | case1 => rfl
  | case2 c =>
    cases t with
    | nil => simpa using h
    | cons u t' =>
      rw [show ([c] ++ u :: t' : Str) = c :: u :: t' from rfl,
        show collapsedOK (c :: u :: t') =
          ((!isWS c || ((c == ' ') && !isWS u)) && collapsedOK (u :: t')) from rfl,
        Bool.and_eq_true] at h
      rcases h with ⟨h1, _⟩
      rw [Bool.or_eq_true] at h1
      rw [show collapsedOK [c] = (!isWS c || (c == ' ')) from rfl, Bool.or_eq_true]
      rcases h1 with h2 | h2
      · exact Or.inl h2
      · rw [Bool.and_eq_true] at h2
        exact Or.inr h2.1
  | case3 c d cs ih =>
    rw [show (c :: d :: cs) ++ t = c :: d :: (cs ++ t) from rfl,
      show collapsedOK (c :: d :: (cs ++ t)) =
        ((!isWS c || ((c == ' ') && !isWS d)) && collapsedOK (d :: (cs ++ t))) from rfl,
      Bool.and_eq_true] at h
    rcases h with ⟨h1, h2⟩
    rw [show collapsedOK (c :: d :: cs) =
      ((!isWS c || ((c == ' ') && !isWS d)) && collapsedOK (d :: cs)) from rfl,
      Bool.and_eq_true]
    exact ⟨h1, ih h2⟩

theorem collapsedOK_suffix (s t : Str) (h : collapsedOK s = true) (hsuf : t <:+ s) :
    collapsedOK t = true := by
  rcases hsuf with ⟨pre, rfl⟩
  induction pre with
  | nil => simpa using h
  | cons p pre' ih => exact ih (collapsedOK_tail _ _ h)

theorem prefix_dropTrailWS (s : Str) : dropTrailWS s <+: s :=
  List.rdropWhile_prefix isWS s

theorem collapsedOK_trimStr (s : Str) (h : collapsedOK s = true) :
    collapsedOK (trimStr s) = true := by
  have h1 : collapsedOK (s.dropWhile isWS) = true :=
    collapsedOK_suffix s _ h (List.dropWhile_suffix isWS)
  rcases prefix_dropTrailWS (s.dropWhile isWS) with ⟨t2, ht2⟩
  refine collapsedOK_append_left _ t2 ?_
  show collapsedOK (dropTrailWS (s.dropWhile isWS) ++ t2) = true
  rw [ht2]
  exact h1

theorem collapseWS_mem (c : Char) (s : Str) (h : c ∈ collapseWS s) : c = ' ' ∨ c ∈ s := by
  induction s using collapseWS.induct with
  | case1 => simp [collapseWS] at h
  | case2 d hd =>
    rw [show collapseWS [d] = if isWS d then [' '] else [d] from rfl, if_pos hd] at h
    simp at h
    exact Or.inl h
  | case3 d hd =>
    rw [show collapseWS [d] = if isWS d then [' '] else [d] from rfl, if_neg hd] at h
    simp at h
    subst h
    exact Or.inr (List.mem_cons_self _ _)
  | case4 d e cs hd he ih =>
    rw [collapseWS, if_pos hd, if_pos he] at h
    rcases ih h with h1 | h1
    · exact Or.inl h1
    · exact Or.inr (List.mem_cons_of_mem _ h1)
  | case5 d e cs hd he ih =>
    rw [collapseWS, if_pos hd, if_neg he] at h
    rcases List.mem_cons.mp h with h1 | h1
    · exact Or.inl h1
    · rcases ih h1 with h2 | h2
      · exact Or.inl h2
      · exact Or.inr (List.mem_cons_of_mem _ h2)
  | case6 d e cs hd ih =>
    rw [collapseWS, if_neg hd] at h
    rcases List.mem_cons.mp h with h1 | h1
    · exact Or.inr (h1 ▸ List.mem_cons_self _ _)
    · rcases ih h1 with h2 | h2
      · exact Or.inl h2
      · exact Or.inr (List.mem_cons_of_mem _ h2)

theorem trimStr_subset (c : Char) (s : Str) (h : c ∈ trimStr s) : c ∈ s := by
  have h1 : c ∈ s.dropWhile isWS := (prefix_dropTrailWS _).subset h
  exact (List.dropWhile_suffix isWS).subset h1

theorem replaceChar_not_mem (a b : Char) (s : Str) (hab : a ≠ b) :
    a ∉ replaceChar a b s := by
  intro hmem
  rcases List.mem_map.mp hmem with ⟨d, _, hd⟩
  by_cases hda : d = a
  · rw [if_pos hda] at hd; exact hab hd.symm
  · rw [if_neg hda] at hd; exact hda hd

theorem replaceChar_preserves_not_mem (x a b : Char) (s : Str) (hx : x ∉ s) (hxb : x ≠ b) :
    x ∉ replaceChar a b s := by
  intro hmem
  rcases List.mem_map.mp hmem with ⟨d, hd1, hd2⟩
  by_cases hda : d = a
  · rw [if_pos hda] at hd2; exact hxb hd2.symm
  · rw [if_neg hda] at hd2; exact hx (hd2 ▸ hd1)

theorem replaceChar_eq_self (a b : Char) (s : Str) (ha : a ∉ s) : replaceChar a b s = s := by
  induction s with
  | nil => rfl
  | cons c cs ih =>
    have hca : c ≠ a := fun h => ha (h ▸ List.mem_cons_self c cs)
    have htl := ih (fun h => ha (List.mem_cons_of_mem _ h))
    simp only [replaceChar, List.map_cons, if_neg hca]
    simpa [replaceChar] using htl

theorem dropWhile_head_false (s : Str) :
    ∀ c u, s.dropWhile isWS = c :: u → isWS c = false := by
  induction s with
  | nil => intro c u h; simp at h
  | cons a s' ih =>
    intro c u h
    by_cases ha : isWS a = true
    · rw [List.dropWhile_cons_of_pos ha] at h
      exact ih c u h
    · rw [List.dropWhile_cons_of_neg ha] at h
      cases h
      simpa using ha

theorem trimStr_idem (s : Str) : trimStr (trimStr s) = trimStr s := by
  cases hdt : trimStr s with
  | nil => rfl
  | cons c u =>
    have hpre : trimStr s <+: s.dropWhile isWS := prefix_dropTrailWS (s.dropWhile isWS)
    rcases hpre with ⟨t2, ht2⟩
    have hc : isWS c = false :=
      dropWhile_head_false s c (u ++ t2) (by rw [← ht2, hdt]; simp)
    show dropTrailWS ((c :: u).dropWhile isWS) = c :: u
    rw [List.dropWhile_cons_of_neg (by simp [hc])]
    have hid : dropTrailWS (trimStr s) = trimStr s :=
      List.rdropWhile_idempotent isWS (s.dropWhile isWS)
    rw [hdt] at hid
    exact hid

theorem utf8Len_append (a b : Str) : utf8Len (a ++ b) = utf8Len a + utf8Len b := by
  simp [utf8Len]

theorem takeBytes_append (a b : Str) : takeBytes (a ++ b) (utf8Len a) = some a := by
  induction a with
  | nil =>
    have h0 : utf8Len ([] : Str) = 0 := by simp [utf8Len]
    rw [List.nil_append, h0]
    cases b <;> rfl
  | cons c a' ih =>
    have hpos : 0 < c.utf8Size := Char.utf8Size_pos c
    cases hn : utf8Len (c :: a') with
    | zero =>
      exfalso
      simp [utf8Len] at hn
      omega
    | succ n =>
      have hcs : c.utf8Size + utf8Len a' = n + 1 := by simpa [utf8Len] using hn
      simp only [List.cons_append, takeBytes]
      rw [if_pos (by omega)]
      have h2 : n + 1 - c.utf8Size = utf8Len a' := by omega
      rw [h2]
      show Option.map (fun r => c :: r) (takeBytes (a' ++ b) (utf8Len a')) = some (c :: a')
      rw [ih]
      rfl

theorem toLowerStr_append (a b : Str) : toLowerStr (a ++ b) = toLowerStr a ++ toLowerStr b := by
  simp [toLowerStr]

theorem dot_mem_of_mem_toLowerStr (a : Str) (h : '.' ∈ toLowerStr a) : '.' ∈ a := by
  rcases List.mem_flatMap.mp h with ⟨c, hc, hmem⟩
  unfold toLowerChar at hmem
  by_cases h1 : 65 ≤ c.toNat ∧ c.toNat ≤ 90
  · rw [if_pos h1] at hmem
    simp only [List.mem_singleton] at hmem
    have key : ∀ n, n < 91 → 65 ≤ n → ¬('.' = Char.ofNat (n + 32)) := by decide
    exact absurd hmem (key c.toNat (by omega) h1.1)
  · rw [if_neg h1] at hmem
    by_cases h2 : c = 'ẞ'
    · rw [if_pos h2] at hmem
      exact absurd hmem (by decide)
    · rw [if_neg h2] at hmem
      by_cases h3 : c = 'İ'
      · rw [if_pos h3] at hmem
        exact absurd hmem (by decide)
      · rw [if_neg h3] at hmem
        simp only [List.mem_singleton] at hmem
        exact hmem ▸ hc

theorem videoExtensions_good : ∀ e ∈ videoExtensions, extGood e = true := by decide

theorem videoExtensions_nosuffix : ∀ e1 ∈ videoExtensions, ∀ e2 ∈ videoExtensions,
    e1 <:+ e2 → e1 = e2 := by decide

theorem extGood_unpack (e : Str) (h : extGood e = true) :
    toLowerStr e = e ∧ '.' ∈ e ∧ utf8Len e = e.length ∧
    (∃ c t, e = c :: t ∧ isWS c = false) ∧ (∃ c t, e.reverse = c :: t ∧ isWS c = false) := by
  unfold extGood at h
  rw [Bool.and_eq_true, Bool.and_eq_true, Bool.and_eq_true, Bool.and_eq_true] at h
  obtain ⟨⟨⟨⟨h1, h2⟩, h3⟩, h4⟩, h5⟩ := h
  refine ⟨of_decide_eq_true h1, of_decide_eq_true h2, of_decide_eq_true h3, ?_, ?_⟩
  · cases he : e with
    | nil => rw [he] at h4; simp at h4
    | cons c t => rw [he] at h4; exact ⟨c, t, rfl, by simpa using h4⟩
  · cases he : e.reverse with
    | nil => rw [he] at h5; simp at h5
    | cons c t => rw [he] at h5; exact ⟨c, t, rfl, by simpa using h5⟩

theorem dropWhile_isWS_append (u v : Str) (c : Char) (t : Str) (hv : v = c :: t)
    (hc : isWS c = false) : (u ++ v).dropWhile isWS = u.dropWhile isWS ++ v := by
  induction u with
  | nil =>
    subst hv
    rw [List.nil_append, List.dropWhile_nil, List.nil_append,
      List.dropWhile_cons_of_neg (by simp [hc])]
  | cons a u' ih =>
    by_cases ha : isWS a = true
    · rw [List.cons_append, List.dropWhile_cons_of_pos ha, List.dropWhile_cons_of_pos ha]
      exact ih
    · rw [List.cons_append, List.dropWhile_cons_of_neg ha, List.dropWhile_cons_of_neg ha,
        List.cons_append]

theorem dropTrailWS_append (y v : Str) (c : Char) (t : Str) (hrev : v.reverse = c :: t)
    (hc : isWS c = false) : dropTrailWS (y ++ v) = y ++ v := by
  show ((y ++ v).reverse.dropWhile isWS).reverse = y ++ v
  rw [List.reverse_append, hrev, List.cons_append,
    List.dropWhile_cons_of_neg (by simp [hc]), ← List.cons_append, ← hrev,
    ← List.reverse_append, List.reverse_reverse]

theorem find?_eq_some_of_unique {α : Type} (p : α → Bool) :
    ∀ (l : List α) (a : α), a ∈ l → p a = true →
      (∀ b ∈ l, p b = true → b = a) → l.find? p = some a := by
  intro l
  induction l with
  | nil => intro a ha _ _; exact absurd ha (List.not_mem_nil a)
  | cons c cs ih =>
    intro a ha hpa huniq
    by_cases hc : p c = true
    · have hca : c = a := huniq c (List.mem_cons_self c cs) hc
      rw [List.find?_cons_of_pos cs hc, hca]
    · rw [List.find?_cons_of_neg cs hc]
      refine ih a ?_ hpa (fun b hb hpb => huniq b (List.mem_cons_of_mem _ hb) hpb)
      rcases List.mem_cons.mp ha with h1 | h1
      · exact absurd (h1 ▸ hpa) hc
      · exact h1

/-- Idempotence of `normalize_separators`: a second pass over any output is
the identity. -/
theorem normalize_separators_idem (w z : Str) (h : normalize_separators w = some z) :
    normalize_separators z = some z := by
  unfold normalize_separators at h
  cases hfe : findNSExt w with
  | none =>
    simp only [hfe] at h
    have hz : z = trimStr (collapseWS (replaceChar '.' ' ' (replaceChar '_' ' ' w))) := by
      have h' := Option.some.inj h
      rw [← h']
      simp [nsFinish]
    have hdot_u : '.' ∉ collapseWS (replaceChar '.' ' ' (replaceChar '_' ' ' w)) := by
      intro hd
      rcases collapseWS_mem _ _ hd with h1 | h1
      · exact absurd h1 (by decide)
      · exact replaceChar_not_mem '.' ' ' _ (by decide) h1
    have hus_u : '_' ∉ collapseWS (replaceChar '.' ' ' (replaceChar '_' ' ' w)) := by
      intro hd
      rcases collapseWS_mem _ _ hd with h1 | h1
      · exact absurd h1 (by decide)
      · exact replaceChar_preserves_not_mem '_' '.' ' ' _
          (replaceChar_not_mem '_' ' ' _ (by decide)) (by decide) h1
    have hdot_z : '.' ∉ z := fun hd => hdot_u (trimStr_subset _ _ (hz ▸ hd))
    have hus_z : '_' ∉ z := fun hd => hus_u (trimStr_subset _ _ (hz ▸ hd))
    have hfz : findNSExt z = none := by
      unfold findNSExt
      rw [List.find?_eq_none]
      intro e he hsuf
      have hs : e <:+ toLowerStr z := by simpa using hsuf
      have hde : '.' ∈ e := (extGood_unpack e (videoExtensions_good e he)).2.1
      exact hdot_z (dot_mem_of_mem_toLowerStr z (hs.subset hde))
    unfold normalize_separators
    rw [hfz]
    have hrep : replaceChar '.' ' ' (replaceChar '_' ' ' z) = z := by
      rw [replaceChar_eq_self '_' ' ' z hus_z, replaceChar_eq_self '.' ' ' z hdot_z]
    have hcoll : collapseWS z = z := by
      apply collapsedOK_eq_self
      rw [hz]
      exact collapsedOK_trimStr _ (collapsedOK_collapseWS _)
    have htr : trimStr z = z := by
      rw [hz]
      exact trimStr_idem _
    simp [nsFinish, hrep, hcoll, htr]
  | some ext =>
    simp only [hfe] at h
    have he : ext ∈ videoExtensions := by
      unfold findNSExt at hfe
      exact List.mem_of_find?_eq_some hfe
    obtain ⟨hlow, hdot_e, hlen, ⟨eh, et, hehd, hehws⟩, ⟨lh, lt, hrev, hlws⟩⟩ :=
      extGood_unpack ext (videoExtensions_good ext he)
    cases htk : takeBytes w (utf8Len w - ext.length) with
    | none => rw [htk] at h; exact absurd h (by simp)
    | some body =>
    rw [htk] at h
    have hz : z = trimStr (collapseWS (replaceChar '.' ' '
        (replaceChar '_' ' ' body)) ++ ext) := by
      have h' := Option.some.inj h
      rw [← h']
      simp [nsFinish]
    have hdot_u : '.' ∉ collapseWS (replaceChar '.' ' ' (replaceChar '_' ' ' body)) := by
      intro hd
      rcases collapseWS_mem _ _ hd with h1 | h1
      · exact absurd h1 (by decide)
      · exact replaceChar_not_mem '.' ' ' _ (by decide) h1
    have hus_u : '_' ∉ collapseWS (replaceChar '.' ' ' (replaceChar '_' ' ' body)) := by
      intro hd
      rcases collapseWS_mem _ _ hd with h1 | h1
      · exact absurd h1 (by decide)
      · exact replaceChar_preserves_not_mem '_' '.' ' ' _
          (replaceChar_not_mem '_' ' ' _ (by decide)) (by decide) h1
    have hzeq : z = (collapseWS (replaceChar '.' ' '
        (replaceChar '_' ' ' body))).dropWhile isWS ++ ext := by
      rw [hz]
      show dropTrailWS (((collapseWS (replaceChar '.' ' ' (replaceChar '_' ' ' body)))
        ++ ext).dropWhile isWS) = _
      rw [dropWhile_isWS_append _ ext eh et hehd hehws]
      exact dropTrailWS_append _ ext lh lt hrev hlws
    have hsub_b : ∀ x : Char,
        x ∈ (collapseWS (replaceChar '.' ' ' (replaceChar '_' ' ' body))).dropWhile isWS →
        x ∈ collapseWS (replaceChar '.' ' ' (replaceChar '_' ' ' body)) :=
      fun x hx => (List.dropWhile_suffix isWS).subset hx
    have hcolb : collapsedOK ((collapseWS (replaceChar '.' ' '
        (replaceChar '_' ' ' body))).dropWhile isWS) = true :=
      collapsedOK_suffix _ _ (collapsedOK_collapseWS _) (List.dropWhile_suffix isWS)
    have htlz : toLowerStr z = toLowerStr ((collapseWS (replaceChar '.' ' '
        (replaceChar '_' ' ' body))).dropWhile isWS) ++ ext := by
      rw [hzeq, toLowerStr_append, hlow]
    have hfz : findNSExt z = some ext := by
      unfold findNSExt
      apply find?_eq_some_of_unique _ videoExtensions ext he
      · simp only [List.isSuffixOf_iff_suffix]
        rw [htlz]
        exact List.suffix_append _ _
      · intro b hb hpb
        have hsb : b <:+ toLowerStr z := by simpa using hpb
        have hse : ext <:+ toLowerStr z := by
          rw [htlz]
          exact List.suffix_append _ _
        rcases List.suffix_or_suffix_of_suffix hsb hse with h1 | h1
        · exact videoExtensions_nosuffix b hb ext he h1
        · exact (videoExtensions_nosuffix ext he b hb h1).symm
    have htb : takeBytes z (utf8Len z - ext.length) = some ((collapseWS (replaceChar '.' ' '
        (replaceChar '_' ' ' body))).dropWhile isWS) := by
      have h1 : utf8Len z = utf8Len ((collapseWS (replaceChar '.' ' '
          (replaceChar '_' ' ' body))).dropWhile isWS) + ext.length := by
        rw [hzeq, utf8Len_append, hlen]
      have h2 : utf8Len z - ext.length = utf8Len ((collapseWS (replaceChar '.' ' '
          (replaceChar '_' ' ' body))).dropWhile isWS) := by omega
      rw [h2, hzeq]
      exact takeBytes_append _ ext
    unfold normalize_separators
    simp only [hfz, htb]
    have hrepb : replaceChar '.' ' ' (replaceChar '_' ' ' ((collapseWS (replaceChar '.' ' '
        (replaceChar '_' ' ' body))).dropWhile isWS)) = (collapseWS (replaceChar '.' ' '
        (replaceChar '_' ' ' body))).dropWhile isWS := by
      rw [replaceChar_eq_self '_' ' ' _ (fun hm => hus_u (hsub_b _ hm)),
        replaceChar_eq_self '.' ' ' _ (fun hm => hdot_u (hsub_b _ hm))]
    have hcollb : collapseWS ((collapseWS (replaceChar '.' ' '
        (replaceChar '_' ' ' body))).dropWhile isWS) = (collapseWS (replaceChar '.' ' '
        (replaceChar '_' ' ' body))).dropWhile isWS :=
      collapsedOK_eq_self _ hcolb
    have htrb : trimStr ((collapseWS (replaceChar '.' ' '
        (replaceChar '_' ' ' body))).dropWhile isWS ++ ext) = (collapseWS (replaceChar '.' ' '
        (replaceChar '_' ' ' body))).dropWhile isWS ++ ext := by
      show dropTrailWS (((collapseWS (replaceChar '.' ' '
        (replaceChar '_' ' ' body))).dropWhile isWS ++ ext).dropWhile isWS) = _
      rw [dropWhile_isWS_append _ ext eh et hehd hehws, List.dropWhile_idempotent]
      exact dropTrailWS_append _ ext lh lt hrev hlws
    rw [show nsFinish ((collapseWS (replaceChar '.' ' '
        (replaceChar '_' ' ' body))).dropWhile isWS) ext = trimStr ((collapseWS
        (replaceChar '.' ' ' (replaceChar '_' ' ' body))).dropWhile isWS ++ ext) from by
      simp [nsFinish, hrepb, hcollb]]
    rw [htrb, ← hzeq]

/-- Claim C3 (amended): normalization is idempotent on every input whose
normalized form contains no player-chrome suffix (formally: stripping a
player suffix from `normalizeTitle x` leaves it unchanged). In general the
claim fails — see `c3_counterexample` — because separator normalization can
manufacture a suffix out of underscores or dots, which only a second pass
would strip. -/
theorem c3_normalize_idempotent_unless_new_suffix (x z : Str)
    (h1 : normalizeTitle x = some z) (h2 : remove_player_suffix z = some z) :
    normalizeTitle z = some z := by
  unfold normalizeTitle at h1 ⊢
  rw [h2]
  cases hrp : remove_player_suffix x with
  | none => rw [hrp] at h1; exact Option.noConfusion h1
  | some w =>
    rw [hrp] at h1
    exact normalize_separators_idem w z h1

/-- Witness for `c3_normalize_idempotent_unless_new_suffix` at a title with
no player suffix and no separators. -/
theorem c3_normalize_idempotent_unless_new_suffix_witness :
    normalizeTitle "abc".toList = some "abc".toList :=
  c3_normalize_idempotent_unless_new_suffix "abc".toList "abc".toList
    (by decide) (by decide)
